import Mathlib

/-!
# Verification of the findates date-arithmetic library

A shallow embedding of the findates Rust library (calendars, business-day
adjustment, schedule generation, day-count fractions) together with proofs
of the specified properties.

Dates are modelled as integers counting days since 1970-01-01 (the civil
proleptic-Gregorian calendar, as implemented by the chrono crate's
NaiveDate).  The bounded search loops of the source, which abort the
process when the representable date range is exhausted, are modelled with
an explicit fuel parameter: a function returns `none` exactly when the
source would not return normally (panic or non-termination).
-/

namespace Findates

/-- Weekdays, as in chrono (`Weekday`). -/
inductive Weekday where
  | mon | tue | wed | thu | fri | sat | sun
  deriving DecidableEq, BEq

/-- Weekday of a date: 1970-01-01 is a Thursday. -/
def weekdayOf (z : Int) : Weekday :=
  match ((z + 3).emod 7).toNat with
  | 0 => .mon
  | 1 => .tue
  | 2 => .wed
  | 3 => .thu
  | 4 => .fri
  | 5 => .sat
  | _ => .sun

/-- Proleptic-Gregorian leap year, as chrono implements it
(`NaiveDate::from_ymd_opt(y, 2, 29).is_some()` in `algebra::is_leap_year`). -/
def isLeapYear (y : Int) : Bool :=
  y.emod 4 == 0 && (y.emod 100 != 0 || y.emod 400 == 0)

/-- Number of days in a month of a given year. -/
def lastDayOfMonth (y : Int) (m : Nat) : Nat :=
  match m with
  | 1 => 31 | 3 => 31 | 5 => 31 | 7 => 31 | 8 => 31 | 10 => 31 | 12 => 31
  | 4 => 30 | 6 => 30 | 9 => 30 | 11 => 30
  | 2 => if isLeapYear y then 29 else 28
  | _ => 0

/-- Day number of a civil date (days since 1970-01-01).
Standard civil-calendar conversion for the proleptic Gregorian calendar. -/
def fromYmd (y : Int) (m d : Nat) : Int :=
  let y' : Int := if m ≤ 2 then y - 1 else y
  let era : Int := y'.fdiv 400
  let yoe : Int := y' - era * 400
  let mp : Int := if 2 < m then (m : Int) - 3 else (m : Int) + 9
  let doy : Int := (153 * mp + 2).fdiv 5 + (d : Int) - 1
  let doe : Int := yoe * 365 + yoe.fdiv 4 - yoe.fdiv 100 + doy
  era * 146097 + doe - 719468

/-- Civil date (year, month, day) of a day number; inverse of `fromYmd`. -/
def civilFromDays (z : Int) : Int × Nat × Nat :=
  let z' : Int := z + 719468
  let era : Int := z'.fdiv 146097
  let doe : Int := z' - era * 146097
  let yoe : Int := (doe - doe.fdiv 1460 + doe.fdiv 36524 - doe.fdiv 146096).fdiv 365
  let y : Int := yoe + era * 400
  let doy : Int := doe - (365 * yoe + yoe.fdiv 4 - yoe.fdiv 100)
  let mp : Int := (5 * doy + 2).fdiv 153
  let d : Int := doy - (153 * mp + 2).fdiv 5 + 1
  let m : Int := if mp < 10 then mp + 3 else mp - 9
  (if m ≤ 2 then y + 1 else y, m.toNat, d.toNat)

/-- Year of a date (chrono `Datelike::year`). -/
def yearOf (z : Int) : Int := (civilFromDays z).1

/-- Month of a date, 1..12 (chrono `Datelike::month`). -/
def monthOf (z : Int) : Nat := (civilFromDays z).2.1

/-- Day of month of a date, 1..31 (chrono `Datelike::day`). -/
def dayOf (z : Int) : Nat := (civilFromDays z).2.2

/-- Add whole months, clamping the day of month to the last valid day of
the target month (chrono `checked_add_months`; total here since the Lean
date type is unbounded). -/
def addMonths (z : Int) (n : Nat) : Int :=
  let c := civilFromDays z
  let tot : Int := c.1 * 12 + ((c.2.1 : Int) - 1) + (n : Int)
  let y' : Int := tot.fdiv 12
  let m' : Nat := (tot.emod 12).toNat + 1
  fromYmd y' m' (min c.2.2 (lastDayOfMonth y' m'))

/-- A holiday calendar: non-working weekdays plus holiday dates
(`calendar::Calendar`; only set membership is semantically relevant). -/
structure Calendar where
  weekend : List Weekday
  holidays : List Int
  deriving DecidableEq

/-- The basic calendar: Saturday/Sunday weekend, no holidays
(`calendar::basic_calendar`). -/
def basic_calendar : Calendar := ⟨[.sat, .sun], []⟩

/-- `algebra::is_business_day`: a date is a business day iff its weekday is
not in the weekend set and the date is not a holiday. -/
def is_business_day (date : Int) (calendar : Calendar) : Bool :=
  if calendar.weekend.contains (weekdayOf date) then false
  else if calendar.holidays.contains date then false
  else true

/-- Business-day adjustment policies (`conventions::AdjustRule`). -/
inductive AdjustRule where
  | Following | ModFollowing | Preceding | ModPreceding
  | Unadjusted | HalfMonthModFollowing | Nearest
  deriving DecidableEq

/-- Forward search of `algebra::add_adjust`: starting at offset `t`
(days after `date`), find the first business day; `fuel` bounds the number
of further steps (the source panics when chrono's range is exhausted). -/
def addSearch (cal : Calendar) (date : Int) : Nat → Nat → Option Int
  | 0, t => if is_business_day (date + t) cal then some (date + t) else none
  | fuel + 1, t =>
    if is_business_day (date + t) cal then some (date + t)
    else addSearch cal date fuel (t + 1)

/-- Backward search of `algebra::sub_adjust`, symmetric to `addSearch`. -/
def subSearch (cal : Calendar) (date : Int) : Nat → Nat → Option Int
  | 0, t => if is_business_day (date - t) cal then some (date - t) else none
  | fuel + 1, t =>
    if is_business_day (date - t) cal then some (date - t)
    else subSearch cal date fuel (t + 1)

/-- `algebra::add_adjust`: first business day strictly after `date`. -/
def add_adjust (date : Int) (calendar : Calendar) (fuel : Nat) : Option Int :=
  addSearch calendar date fuel 1

/-- `algebra::sub_adjust`: first business day strictly before `date`. -/
def sub_adjust (date : Int) (calendar : Calendar) (fuel : Nat) : Option Int :=
  subSearch calendar date fuel 1

/-- `algebra::adjust`: move a date to a business day according to an
optional calendar and adjustment rule. -/
def adjust (date : Int) (opt_calendar : Option Calendar)
    (adjust_rule : Option AdjustRule) (fuel : Nat) : Option Int :=
  match opt_calendar with
  | none => some date
  | some calendar =>
    if is_business_day date calendar then some date
    else
      match adjust_rule with
      | none => some date
      | some .Unadjusted => some date
      | some .Following => add_adjust date calendar fuel
      | some .ModFollowing =>
        (add_adjust date calendar fuel).bind fun adj =>
          if monthOf adj ≠ monthOf date then sub_adjust date calendar fuel
          else some adj
      | some .Preceding => sub_adjust date calendar fuel
      | some .ModPreceding =>
        (sub_adjust date calendar fuel).bind fun adj =>
          if monthOf adj ≠ monthOf date then add_adjust date calendar fuel
          else some adj
      | some .HalfMonthModFollowing =>
        (add_adjust date calendar fuel).bind fun adj =>
          if monthOf adj ≠ monthOf date then sub_adjust date calendar fuel
          else if dayOf date ≤ 15 ∧ 15 < dayOf adj then sub_adjust date calendar fuel
          else some adj
      | some .Nearest =>
        (add_adjust date calendar fuel).bind fun follow_date =>
          (sub_adjust date calendar fuel).bind fun prec_date =>
            if (follow_date - date).natAbs ≤ (prec_date - date).natAbs then
              some follow_date
            else some prec_date

/-- Step frequencies of a schedule (`conventions::Frequency`, restricted to
the variants `schedule::schedule_next` dispatches on). -/
inductive Frequency where
  | Daily | Weekly | Biweekly | EveryFourthWeek
  | Monthly | Bimonthly | Quarterly | EveryFourthMonth | Semiannual | Annual
  | Once
  deriving DecidableEq

/-- The forced-progress loop shared by `schedule::force_add_duration_adjust`
and `schedule::force_add_months_adjust` (and the inner loop of
`algebra::bus_day_schedule`): adjust `anchor + k`, `anchor + k + 1`, ...
until the adjusted date is strictly after `anchor`. -/
def forceFrom (anchor : Int) (cal : Option Calendar) (rule : Option AdjustRule) :
    Nat → Nat → Option Int
  | 0, _ => none
  | fuel + 1, k =>
    (adjust (anchor + k) cal rule (fuel + 1)).bind fun res =>
      if res ≤ anchor then forceFrom anchor cal rule fuel (k + 1) else some res

/-- Common body of the two forced-progress stepping functions: adjust the raw
stepped date, and if the result is not strictly after the anchor, search
forward one day at a time. -/
def forceCore (anchor raw : Int) (cal : Option Calendar) (rule : Option AdjustRule)
    (fuel : Nat) : Option Int :=
  (adjust raw cal rule fuel).bind fun res =>
    if res ≤ anchor then forceFrom anchor cal rule fuel 1 else some res

/-- `schedule::force_add_duration_adjust`: step by a whole number of days,
adjust, and force progress past the anchor. -/
def force_add_duration_adjust (anchor : Int) (delta : Int) (cal : Option Calendar)
    (rule : Option AdjustRule) (fuel : Nat) : Option Int :=
  forceCore anchor (anchor + delta) cal rule fuel

/-- `schedule::force_add_months_adjust`: step by whole months (end-of-month
clamped), adjust, and force progress past the anchor. -/
def force_add_months_adjust (anchor : Int) (months : Nat) (cal : Option Calendar)
    (rule : Option AdjustRule) (fuel : Nat) : Option Int :=
  forceCore anchor (addMonths anchor months) cal rule fuel

/-- `schedule::schedule_next`: the next date of a schedule after an anchor. -/
def schedule_next (anchor : Int) (frequency : Frequency) (cal : Option Calendar)
    (rule : Option AdjustRule) (fuel : Nat) : Option Int :=
  match frequency with
  | .Daily => force_add_duration_adjust anchor 1 cal rule fuel
  | .Weekly => force_add_duration_adjust anchor 7 cal rule fuel
  | .Biweekly => force_add_duration_adjust anchor 14 cal rule fuel
  | .EveryFourthWeek => force_add_duration_adjust anchor 28 cal rule fuel
  | .Monthly => force_add_months_adjust anchor 1 cal rule fuel
  | .Bimonthly => force_add_months_adjust anchor 2 cal rule fuel
  | .Quarterly => force_add_months_adjust anchor 3 cal rule fuel
  | .EveryFourthMonth => force_add_months_adjust anchor 4 cal rule fuel
  | .Semiannual => force_add_months_adjust anchor 6 cal rule fuel
  | .Annual => force_add_months_adjust anchor 12 cal rule fuel
  | .Once => some anchor

/-- A schedule configuration (`schedule::Schedule`). -/
structure Schedule where
  frequency : Frequency
  calendar : Option Calendar
  adjust_rule : Option AdjustRule
  deriving DecidableEq

/-- The typed failure of `Schedule::generate` (`end ≤ start`). -/
inductive GenError where
  | invalidRange
  deriving DecidableEq

/-- Outcome of `Schedule::generate` (Rust `Result`). -/
inductive GenResult where
  | ok (dates : List Int)
  | error (e : GenError)
  deriving DecidableEq

/-- The `take_while (< end)`-and-collect consumption of the schedule
iterator inside `Schedule::generate`: repeatedly pull `schedule_next`
(each output becoming the next anchor) while the produced date is strictly
before `e`.  `none` models non-termination or a panicking search. -/
def scheduleCollect (freq : Frequency) (cal : Option Calendar)
    (rule : Option AdjustRule) (e : Int) : Nat → Int → Option (List Int)
  | 0, _ => none
  | fuel + 1, anchor =>
    (schedule_next anchor freq cal rule (fuel + 1)).bind fun nxt =>
      if nxt < e then (scheduleCollect freq cal rule e fuel nxt).map (nxt :: ·)
      else some []

/-- `Schedule::generate`: fail with the typed error when `end ≤ start`,
otherwise collect the iterator's dates strictly below `end`. -/
def Schedule.generate (s : Schedule) (anchor_date end_date : Int) (fuel : Nat) :
    Option GenResult :=
  if end_date ≤ anchor_date then some (.error .invalidRange)
  else (scheduleCollect s.frequency s.calendar s.adjust_rule end_date fuel anchor_date).map .ok

/-- The while loop of `algebra::bus_day_schedule`: while the previous
business day is before the adjusted end, find the next strictly later
adjusted date and append it. -/
def bdsLoop (cal : Calendar) (rule : Option AdjustRule) (new_end : Int) :
    Nat → Int → Option (List Int)
  | 0, prev => if prev < new_end then none else some []
  | fuel + 1, prev =>
    if prev < new_end then
      (forceFrom prev (some cal) rule (fuel + 1) 1).bind fun nxt =>
        (bdsLoop cal rule new_end fuel nxt).map (nxt :: ·)
    else some []

/-- `algebra::bus_day_schedule`: the adjusted business-day schedule between
two dates, both endpoints adjusted (rule defaulting to Following) and
included. -/
def bus_day_schedule (start_date end_date : Int) (calendar : Calendar)
    (adjust_rule : Option AdjustRule) (fuel : Nat) : Option (List Int) :=
  let rule : Option AdjustRule := some (adjust_rule.getD .Following)
  (adjust start_date (some calendar) rule fuel).bind fun new_start =>
    (adjust end_date (some calendar) rule fuel).bind fun new_end =>
      (bdsLoop calendar rule new_end fuel new_start).map (new_start :: ·)

/-- `algebra::business_days_between`: length of the business-day schedule
minus one (start included, end excluded). -/
def business_days_between (start_date end_date : Int) (calendar : Calendar)
    (adjust_rule : Option AdjustRule) (fuel : Nat) : Option Nat :=
  (bus_day_schedule start_date end_date calendar adjust_rule fuel).map
    (fun schedule => schedule.length - 1)

/-- Day-count conventions (`conventions::DayCount`, with the variant names
`algebra::day_count_fraction` dispatches on). -/
inductive DayCount where
  | Act360 | Act365 | ActActISDA | D30360Euro | D30365 | Bd252
  deriving DecidableEq

/-- Outcome of `algebra::day_count_fraction`: a rational fraction, or the
process-aborting panic taken when `Bd252` is requested without a calendar. -/
inductive DCFOutcome where
  | value (q : Rat)
  | panicMissingCalendar
  deriving DecidableEq

/-- Body of `algebra::day_count_fraction`, parameterised over the
recursive call used by the `ActActISDA` swapped-interval branch. -/
def dcfBody
    (recCall : Int → Int → DayCount → Option Calendar → Option AdjustRule →
      Option DCFOutcome)
    (fuel : Nat) (start_date end_date : Int) (daycount : DayCount)
    (calendar : Option Calendar) (adjust_rule : Option AdjustRule) :
    Option DCFOutcome :=
  let pre : Option (Int × Int × Option AdjustRule) :=
    match calendar with
    | none => some (start_date, end_date, adjust_rule)
    | some c =>
      let some_adjust_rule : Option AdjustRule := some (adjust_rule.getD .Following)
      (adjust start_date (some c) some_adjust_rule fuel).bind fun start_adjusted =>
        (adjust end_date (some c) some_adjust_rule fuel).map fun end_adjusted =>
          (start_adjusted, end_adjusted, some_adjust_rule)
  pre.bind fun p =>
    let start_adjusted := p.1
    let end_adjusted := p.2.1
    let some_adjust_rule := p.2.2
    let delta : Nat := (start_adjusted - end_adjusted).natAbs
    let start_year := yearOf start_adjusted
    let start_month := monthOf start_adjusted
    let start_day := dayOf start_adjusted
    let end_year := yearOf end_adjusted
    let end_month := monthOf end_adjusted
    let end_day := dayOf end_adjusted
    match daycount with
    | .Act360 => some (.value ((delta : Rat) / 360))
    | .Act365 => some (.value ((delta : Rat) / 365))
    | .ActActISDA =>
      if start_adjusted = end_adjusted then some (.value 0)
      else if start_year = end_year ∧ isLeapYear start_year then
        some (.value ((delta : Rat) / 366))
      else if start_year = end_year ∧ ¬ isLeapYear start_year then
        some (.value ((delta : Rat) / 365))
      else if end_adjusted < start_adjusted then
        recCall end_adjusted start_adjusted .ActActISDA calendar some_adjust_rule
      else
        let base1 : Rat := if isLeapYear start_year then 366 else 365
        let base2 : Rat := if isLeapYear end_year then 366 else 365
        let dcf1 : Rat := ((fromYmd (start_year + 1) 1 1 - start_adjusted : Int) : Rat) / base1
        let dcf2 : Rat := ((end_adjusted - fromYmd end_year 1 1 : Int) : Rat) / base2
        some (.value ((end_year : Rat) - (start_year : Rat) - 1 + dcf1 + dcf2))
    | .D30360Euro =>
      let sd : Int := if start_day = 31 then 30 else start_day
      let ed : Int := if end_day = 31 then 30 else end_day
      let res : Int := 360 * (end_year - start_year)
        + 30 * ((end_month : Int) - (start_month : Int)) + (ed - sd)
      some (.value ((res : Rat) / 360))
    | .D30365 =>
      let res : Int := 360 * (end_year - start_year)
        + 30 * ((end_month : Int) - (start_month : Int))
        + ((end_day : Int) - (start_day : Int))
      some (.value ((res : Rat) / 365))
    | .Bd252 =>
      match calendar with
      | none => some .panicMissingCalendar
      | some c =>
        (business_days_between start_adjusted end_adjusted c some_adjust_rule fuel).map
          fun n => .value ((n : Rat) / 252)

/-- `algebra::day_count_fraction`: accrual fraction between two dates under
a day-count convention; the fuel bounds the adjustment searches and the
single `ActActISDA` swap recursion. -/
def day_count_fraction : Nat → Int → Int → DayCount → Option Calendar →
    Option AdjustRule → Option DCFOutcome
  | 0 => dcfBody (fun _ _ _ _ _ => none) 0
  | fuel + 1 => dcfBody (day_count_fraction fuel) (fuel + 1)

/-! ## Helper lemmas about the searches and the adjuster -/

/-- A successful forward search returns the least business day at or after
the starting offset. -/
theorem addSearch_some (cal : Calendar) (d : Int) :
    ∀ fuel t r, addSearch cal d fuel t = some r →
      d + t ≤ r ∧ is_business_day r cal = true ∧
      ∀ x : Int, d + t ≤ x → x < r → is_business_day x cal = false := by
  intro fuel
  induction fuel with
  | zero =>
    intro t r h
    simp only [addSearch] at h
    split at h
    · cases h
      exact ⟨le_refl _, by assumption, fun x hx hxr => absurd (lt_of_le_of_lt hx hxr) (lt_irrefl _)⟩
    · exact absurd h (by simp)
  | succ f ih =>
    intro t r h
    simp only [addSearch] at h
    split at h
    case isTrue hb =>
      cases h
      exact ⟨le_refl _, hb, fun x hx hxr => absurd (lt_of_le_of_lt hx hxr) (lt_irrefl _)⟩
    case isFalse hb =>
      obtain ⟨h1, h2, h3⟩ := ih (t + 1) r h
      have h1' : d + (t : Int) ≤ r := by push_cast at h1 ⊢; omega
      refine ⟨h1', h2, ?_⟩
      intro x hx hxr
      rcases eq_or_lt_of_le hx with heq | hlt
      · rw [← heq]
        simpa using hb
      · exact h3 x (by push_cast; omega) hxr

/-- A successful backward search returns the greatest business day at or
before the starting offset. -/
theorem subSearch_some (cal : Calendar) (d : Int) :
    ∀ fuel t r, subSearch cal d fuel t = some r →
      r ≤ d - t ∧ is_business_day r cal = true ∧
      ∀ x : Int, r < x → x ≤ d - t → is_business_day x cal = false := by
  intro fuel
  induction fuel with
  | zero =>
    intro t r h
    simp only [subSearch] at h
    split at h
    · cases h
      exact ⟨le_refl _, by assumption, fun x hx hxr => absurd (lt_of_lt_of_le hx hxr) (lt_irrefl _)⟩
    · exact absurd h (by simp)
  | succ f ih =>
    intro t r h
    simp only [subSearch] at h
    split at h
    case isTrue hb =>
      cases h
      exact ⟨le_refl _, hb, fun x hx hxr => absurd (lt_of_lt_of_le hx hxr) (lt_irrefl _)⟩
    case isFalse hb =>
      obtain ⟨h1, h2, h3⟩ := ih (t + 1) r h
      have h1' : r ≤ d - (t : Int) := by push_cast at h1 ⊢; omega
      refine ⟨h1', h2, ?_⟩
      intro x hx hxr
      rcases eq_or_lt_of_le hxr with heq | hlt
      · rw [heq]
        simpa using hb
      · exact h3 x hx (by push_cast; omega)

/-- Adjusting with no calendar returns the date unchanged. -/
theorem adjust_no_calendar (d : Int) (rule : Option AdjustRule) (fuel : Nat) :
    adjust d none rule fuel = some d := rfl

/-- Adjusting a business day returns it unchanged, for every rule. -/
theorem adjust_business (d : Int) (c : Calendar) (rule : Option AdjustRule) (fuel : Nat)
    (hb : is_business_day d c = true) : adjust d (some c) rule fuel = some d := by
  simp [adjust, hb]

/-- Adjusting with no rule, or with `Unadjusted`, returns the date unchanged. -/
theorem adjust_unadjusted (d : Int) (c : Calendar) (fuel : Nat) (rule : Option AdjustRule)
    (hr : rule = none ∨ rule = some .Unadjusted) :
    adjust d (some c) rule fuel = some d := by
  rcases hr with rfl | rfl <;> (simp only [adjust]; split <;> rfl)

/-- A successful adjustment under a calendar and a rule other than
`Unadjusted` always lands on a business day. -/
theorem adjust_some_business {d : Int} {c : Calendar} {r : AdjustRule} {fuel : Nat} {x : Int}
    (h : adjust d (some c) (some r) fuel = some x) (hr : r ≠ .Unadjusted) :
    is_business_day x c = true := by
  simp only [adjust] at h
  split at h
  case isTrue hb => cases h; exact hb
  case isFalse hb =>
    cases r with
    | Unadjusted => exact absurd rfl hr
    | Following => exact (addSearch_some c d fuel 1 x h).2.1
    | Preceding => exact (subSearch_some c d fuel 1 x h).2.1
    | ModFollowing =>
      obtain ⟨adj, hadj, hx⟩ := Option.bind_eq_some.mp h
      split at hx
      · exact (subSearch_some c d fuel 1 x hx).2.1
      · cases hx; exact (addSearch_some c d fuel 1 _ hadj).2.1
    | ModPreceding =>
      obtain ⟨adj, hadj, hx⟩ := Option.bind_eq_some.mp h
      split at hx
      · exact (addSearch_some c d fuel 1 x hx).2.1
      · cases hx; exact (subSearch_some c d fuel 1 _ hadj).2.1
    | HalfMonthModFollowing =>
      obtain ⟨adj, hadj, hx⟩ := Option.bind_eq_some.mp h
      split at hx
      · exact (subSearch_some c d fuel 1 x hx).2.1
      · split at hx
        · exact (subSearch_some c d fuel 1 x hx).2.1
        · cases hx; exact (addSearch_some c d fuel 1 _ hadj).2.1
    | Nearest =>
      obtain ⟨fd, hfd, hx⟩ := Option.bind_eq_some.mp h
      obtain ⟨pd, hpd, hx'⟩ := Option.bind_eq_some.mp hx
      split at hx'
      · cases hx'; exact (addSearch_some c d fuel 1 _ hfd).2.1
      · cases hx'; exact (subSearch_some c d fuel 1 _ hpd).2.1

/-- The forced-progress loop only returns dates strictly after the anchor. -/
theorem forceFrom_some_gt {a : Int} {cal : Option Calendar} {rule : Option AdjustRule} :
    ∀ {fuel k : Nat} {r : Int}, forceFrom a cal rule fuel k = some r → a < r := by
  intro fuel
  induction fuel with
  | zero => intro k r h; simp [forceFrom] at h
  | succ f ih =>
    intro k r h
    simp only [forceFrom] at h
    obtain ⟨res, _, h2⟩ := Option.bind_eq_some.mp h
    split at h2
    · exact ih h2
    · cases h2; omega

/-- The forced-progress loop only returns adjusted dates, hence business
days whenever a rule other than `Unadjusted` is in force. -/
theorem forceFrom_some_business {a : Int} {c : Calendar} {r : AdjustRule}
    (hr : r ≠ .Unadjusted) :
    ∀ {fuel k : Nat} {x : Int}, forceFrom a (some c) (some r) fuel k = some x →
      is_business_day x c = true := by
  intro fuel
  induction fuel with
  | zero => intro k x h; simp [forceFrom] at h
  | succ f ih =>
    intro k x h
    simp only [forceFrom] at h
    obtain ⟨res, hres, h2⟩ := Option.bind_eq_some.mp h
    split at h2
    · exact ih h2
    · cases h2; exact adjust_some_business hres hr

/-- The shared stepping core only returns dates strictly after the anchor. -/
theorem forceCore_some_gt {a raw : Int} {cal : Option Calendar} {rule : Option AdjustRule}
    {fuel : Nat} {r : Int} (h : forceCore a raw cal rule fuel = some r) : a < r := by
  simp only [forceCore] at h
  obtain ⟨res, _, h2⟩ := Option.bind_eq_some.mp h
  split at h2
  · exact forceFrom_some_gt h2
  · cases h2; omega

/-- The shared stepping core only returns adjusted dates, hence business
days whenever a rule other than `Unadjusted` is in force. -/
theorem forceCore_some_business {a raw : Int} {c : Calendar} {r : AdjustRule}
    {fuel : Nat} {x : Int} (h : forceCore a raw (some c) (some r) fuel = some x)
    (hr : r ≠ .Unadjusted) : is_business_day x c = true := by
  simp only [forceCore] at h
  obtain ⟨res, hres, h2⟩ := Option.bind_eq_some.mp h
  split at h2
  · exact forceFrom_some_business hr h2
  · cases h2; exact adjust_some_business hres hr

/-- For every frequency other than `Once`, a successful `schedule_next`
makes strict forward progress. -/
theorem schedule_next_gt {a : Int} {freq : Frequency} {cal : Option Calendar}
    {rule : Option AdjustRule} {fuel : Nat} {r : Int}
    (h : schedule_next a freq cal rule fuel = some r) (hf : freq ≠ .Once) : a < r := by
  cases freq <;>
    simp only [schedule_next, force_add_duration_adjust, force_add_months_adjust] at h <;>
    first
      | exact absurd rfl hf
      | exact forceCore_some_gt h

/-- For every frequency other than `Once`, a successful `schedule_next`
under a calendar and a rule other than `Unadjusted` lands on a business day. -/
theorem schedule_next_business {a : Int} {freq : Frequency} {c : Calendar} {r : AdjustRule}
    {fuel : Nat} {x : Int} (h : schedule_next a freq (some c) (some r) fuel = some x)
    (hf : freq ≠ .Once) (hr : r ≠ .Unadjusted) : is_business_day x c = true := by
  cases freq <;>
    simp only [schedule_next, force_add_duration_adjust, force_add_months_adjust] at h <;>
    first
      | exact absurd rfl hf
      | exact forceCore_some_business h hr

/-- With frequency `Once` the iterator is stationary: when the anchor is
below the bound, the bounded collector never completes. -/
theorem scheduleCollect_once_none {cal : Option Calendar} {rule : Option AdjustRule}
    {e : Int} {a : Int} (ha : a < e) :
    ∀ fuel, scheduleCollect .Once cal rule e fuel a = none := by
  intro fuel
  induction fuel with
  | zero => rfl
  | succ f ih =>
    simp only [scheduleCollect, schedule_next, Option.some_bind, if_pos ha, ih, Option.map_none']

/-- Invariant of the bounded schedule collector: the yielded dates extend a
strictly increasing chain from the anchor, stay strictly below the bound,
and are business days whenever a calendar and a rule other than
`Unadjusted` are in force. -/
theorem scheduleCollect_some {freq : Frequency} {cal : Option Calendar}
    {rule : Option AdjustRule} {e : Int} :
    ∀ {fuel : Nat} {a : Int} {l : List Int},
      scheduleCollect freq cal rule e fuel a = some l →
      List.Chain' (· < ·) (a :: l) ∧ (∀ x ∈ l, x < e) ∧
      (∀ c r, cal = some c → rule = some r → r ≠ .Unadjusted →
        ∀ x ∈ l, is_business_day x c = true) := by
  intro fuel
  induction fuel with
  | zero => intro a l h; simp [scheduleCollect] at h
  | succ f ih =>
    intro a l h
    simp only [scheduleCollect] at h
    obtain ⟨nxt, hnxt, h2⟩ := Option.bind_eq_some.mp h
    by_cases hlt : nxt < e
    · rw [if_pos hlt] at h2
      obtain ⟨l', hl', rfl⟩ := Option.map_eq_some'.mp h2
      by_cases hfreq : freq = .Once
      · subst hfreq
        obtain rfl : a = nxt := by simpa [schedule_next] using hnxt
        rw [scheduleCollect_once_none hlt f] at hl'
        exact absurd hl' (by simp)
      · have hgt : a < nxt := schedule_next_gt hnxt hfreq
        obtain ⟨hch, hbelow, hbus⟩ := ih hl'
        refine ⟨List.chain'_cons.mpr ⟨hgt, hch⟩, ?_, ?_⟩
        · intro x hx
          rcases List.mem_cons.mp hx with rfl | hx
          · exact hlt
          · exact hbelow x hx
        · intro c r hc hr hru x hx
          rcases List.mem_cons.mp hx with rfl | hx
          · subst hc; subst hr
            exact schedule_next_business hnxt hfreq hru
          · exact hbus c r hc hr hru x hx
    · rw [if_neg hlt] at h2
      cases h2
      exact ⟨List.chain'_singleton a, by simp, by simp⟩

/-- When the (adjusted) start is at or past the (adjusted) end, the
while loop of `bus_day_schedule` exits immediately. -/
theorem bdsLoop_ge {c : Calendar} {rule : Option AdjustRule} {ne : Int} {prev : Int}
    (h : ¬ prev < ne) : ∀ fuel, bdsLoop c rule ne fuel prev = some [] := by
  intro fuel
  cases fuel <;> simp [bdsLoop, h]

/-- Executable check that every pair of consecutive list entries satisfies
a Boolean relation (used to state concrete claims about generated
schedules). -/
def chainB (R : Int → Int → Bool) : List Int → Bool
  | [] => true
  | [_] => true
  | a :: b :: l => R a b && chainB R (b :: l)

/-! ## Claims -/

/-- **C9**: `adjust` returns the date unchanged when no calendar is
supplied; when a calendar is supplied and the date is already a business
day (for every rule); and when the date is not a business day but the rule
is absent or `Unadjusted`. -/
theorem adjust_identity_cases (d : Int) (rule : Option AdjustRule) (fuel : Nat) :
    adjust d none rule fuel = some d ∧
    (∀ c : Calendar, is_business_day d c = true → adjust d (some c) rule fuel = some d) ∧
    (∀ c : Calendar, is_business_day d c = false →
      rule = none ∨ rule = some .Unadjusted → adjust d (some c) rule fuel = some d) :=
  ⟨rfl, fun c hb => adjust_business d c rule fuel hb,
    fun c _ hr => adjust_unadjusted d c fuel rule hr⟩

/-- Witness for C9 at 2023-08-15 (a Tuesday) and 2023-08-19 (a Saturday)
under the Saturday/Sunday calendar. -/
theorem adjust_identity_cases_witness :
    adjust (fromYmd 2023 8 15) none (some .Following) 3 = some (fromYmd 2023 8 15) ∧
    adjust (fromYmd 2023 8 15) (some basic_calendar) (some .Following) 3
      = some (fromYmd 2023 8 15) ∧
    adjust (fromYmd 2023 8 19) (some basic_calendar) (some .Unadjusted) 3
      = some (fromYmd 2023 8 19) :=
  ⟨(adjust_identity_cases (fromYmd 2023 8 15) (some .Following) 3).1,
    (adjust_identity_cases (fromYmd 2023 8 15) (some .Following) 3).2.1
      basic_calendar (by decide),
    (adjust_identity_cases (fromYmd 2023 8 19) (some .Unadjusted) 3).2.2
      basic_calendar (by decide) (Or.inr rfl)⟩

/-- **C8**: whenever the `Following` and `Preceding` adjustments return,
`Following(d) ≥ d` and `Preceding(d) ≤ d`, both results are business days,
and for a non-business `d` the `Following` result is the first business
day strictly after `d` and the `Preceding` result the first business day
strictly before `d`. -/
theorem adjust_following_preceding_spec (d : Int) (c : Calendar) (fuel : Nat) (rF rP : Int)
    (hF : adjust d (some c) (some .Following) fuel = some rF)
    (hP : adjust d (some c) (some .Preceding) fuel = some rP) :
    d ≤ rF ∧ rP ≤ d ∧ is_business_day rF c = true ∧ is_business_day rP c = true ∧
    (is_business_day d c = false →
      (d < rF ∧ ∀ x : Int, d < x → x < rF → is_business_day x c = false) ∧
      (rP < d ∧ ∀ x : Int, rP < x → x < d → is_business_day x c = false)) := by
  simp only [adjust] at hF hP
  by_cases hb : is_business_day d c = true
  · rw [if_pos hb] at hF hP
    cases hF; cases hP
    exact ⟨le_refl d, le_refl d, hb, hb, fun hbf => absurd hb (by simp [hbf])⟩
  · rw [if_neg hb] at hF hP
    obtain ⟨h1, h2, h3⟩ := addSearch_some c d fuel 1 rF hF
    obtain ⟨g1, g2, g3⟩ := subSearch_some c d fuel 1 rP hP
    push_cast at h1 g1
    refine ⟨by omega, by omega, h2, g2, fun _ => ?_⟩
    exact ⟨⟨by omega, fun x hx hxr => h3 x (by push_cast; omega) hxr⟩,
      ⟨by omega, fun x hx hxr => g3 x hx (by push_cast; omega)⟩⟩

/-- Witness for C8 at 2023-09-02 (a Saturday) under the Saturday/Sunday
calendar: Following lands on Monday 2023-09-04, Preceding on Friday
2023-09-01. -/
theorem adjust_following_preceding_spec_witness :
    fromYmd 2023 9 2 ≤ fromYmd 2023 9 4 ∧ fromYmd 2023 9 1 ≤ fromYmd 2023 9 2 ∧
    is_business_day (fromYmd 2023 9 4) basic_calendar = true ∧
    is_business_day (fromYmd 2023 9 1) basic_calendar = true ∧
    (is_business_day (fromYmd 2023 9 2) basic_calendar = false →
      (fromYmd 2023 9 2 < fromYmd 2023 9 4 ∧
        ∀ x : Int, fromYmd 2023 9 2 < x → x < fromYmd 2023 9 4 →
          is_business_day x basic_calendar = false) ∧
      (fromYmd 2023 9 1 < fromYmd 2023 9 2 ∧
        ∀ x : Int, fromYmd 2023 9 1 < x → x < fromYmd 2023 9 2 →
          is_business_day x basic_calendar = false)) :=
  adjust_following_preceding_spec (fromYmd 2023 9 2) basic_calendar 5
    (fromYmd 2023 9 4) (fromYmd 2023 9 1) (by decide) (by decide)

/-- A calendar whose only business days are Sundays, with the four Sundays
of September 2023 declared holidays: September 2023 then contains no
business day at all. -/
def sundaysOnlyCal : Calendar :=
  ⟨[.mon, .tue, .wed, .thu, .fri, .sat],
    [fromYmd 2023 9 3, fromYmd 2023 9 10, fromYmd 2023 9 17, fromYmd 2023 9 24]⟩

/-- **C7, counterexample**: adjusting Saturday 2023-09-30 with
`ModFollowing` under `sundaysOnlyCal` returns Sunday 2023-08-27 — a date
outside the original month (the `Preceding` fallback crossed into
August). -/
theorem adjust_modfollowing_cex :
    adjust (fromYmd 2023 9 30) (some sundaysOnlyCal) (some .ModFollowing) 40
      = some (fromYmd 2023 8 27) ∧
    monthOf (fromYmd 2023 9 30) = 9 ∧ monthOf (fromYmd 2023 8 27) = 8 := by
  decide

/-- **C7, amended**: `adjust` with `ModFollowing` returns either a date
with the same month number as the input, or a date strictly earlier than
the input (the `Preceding` fallback taken when `Following` leaves the
month). -/
theorem adjust_modfollowing_month_or_earlier (d : Int) (c : Calendar) (fuel : Nat) (r : Int)
    (h : adjust d (some c) (some .ModFollowing) fuel = some r) :
    monthOf r = monthOf d ∨ r < d := by
  simp only [adjust] at h
  split at h
  case isTrue => cases h; exact Or.inl rfl
  case isFalse hb =>
    obtain ⟨adj, hadj, hr⟩ := Option.bind_eq_some.mp h
    split at hr
    case isTrue hm =>
      have h1 := (subSearch_some c d fuel 1 r hr).1
      push_cast at h1
      exact Or.inr (by omega)
    case isFalse hm =>
      cases hr
      exact Or.inl (not_ne_iff.mp hm)

/-- Witness for the amended C7 at Saturday 2023-09-30 under the
Saturday/Sunday calendar (result Friday 2023-09-29, same month). -/
theorem adjust_modfollowing_month_or_earlier_witness :
    monthOf (fromYmd 2023 9 29) = monthOf (fromYmd 2023 9 30) ∨
      fromYmd 2023 9 29 < fromYmd 2023 9 30 :=
  adjust_modfollowing_month_or_earlier (fromYmd 2023 9 30) basic_calendar 5
    (fromYmd 2023 9 29) (by decide)

/-- **C3**: whenever `schedule_next` returns, the result is strictly after
the anchor for every frequency other than `Once`, and equals the anchor
for `Once`. -/
theorem schedule_next_progress (anchor : Int) (freq : Frequency) (cal : Option Calendar)
    (rule : Option AdjustRule) (fuel : Nat) (r : Int)
    (h : schedule_next anchor freq cal rule fuel = some r) :
    (freq ≠ .Once → anchor < r) ∧ (freq = .Once → r = anchor) := by
  refine ⟨fun hf => schedule_next_gt h hf, fun hf => ?_⟩
  subst hf
  simp only [schedule_next, Option.some_inj] at h
  exact h.symm

/-- Witness for C3 with the Daily frequency, no calendar, at
2023-08-15. -/
theorem schedule_next_progress_witness :
    (Frequency.Daily ≠ Frequency.Once → fromYmd 2023 8 15 < fromYmd 2023 8 16) ∧
    (Frequency.Daily = Frequency.Once → fromYmd 2023 8 16 = fromYmd 2023 8 15) :=
  schedule_next_progress (fromYmd 2023 8 15) .Daily none none 3 (fromYmd 2023 8 16)
    (by decide)

/-- **C2, counterexample**: a Daily schedule carrying the Saturday/Sunday
calendar but no adjustment rule generates Saturday 2023-09-30, which is
not a business day of that calendar. -/
theorem generate_nonbusiness_cex :
    (Schedule.mk .Daily (some basic_calendar) none).generate
        (fromYmd 2023 9 29) (fromYmd 2023 10 1) 10
      = some (.ok [fromYmd 2023 9 30]) ∧
    is_business_day (fromYmd 2023 9 30) basic_calendar = false := by
  decide

/-- **C2, amended**: every vector returned by `generate` is strictly
increasing with every element strictly below the end date, and, whenever
the schedule carries a calendar together with an adjustment rule other
than `Unadjusted`, every element is a business day of that calendar. -/
theorem generate_sorted_bounded_business (s : Schedule) (start_date end_date : Int)
    (fuel : Nat) (l : List Int) (h : s.generate start_date end_date fuel = some (.ok l)) :
    List.Pairwise (· < ·) l ∧ (∀ x ∈ l, x < end_date) ∧
    (∀ c r, s.calendar = some c → s.adjust_rule = some r → r ≠ .Unadjusted →
      ∀ x ∈ l, is_business_day x c = true) := by
  simp only [Schedule.generate] at h
  split at h
  · simp at h
  · obtain ⟨l', hl', hok⟩ := Option.map_eq_some'.mp h
    have hll : l' = l := by injection hok
    subst hll
    obtain ⟨hch, hbelow, hbus⟩ := scheduleCollect_some hl'
    have hp : List.Pairwise (· < ·) (start_date :: l') := List.chain'_iff_pairwise.mp hch
    exact ⟨(List.pairwise_cons.mp hp).2, hbelow, hbus⟩

/-- Witness for the amended C2: a Daily no-calendar schedule from
2023-08-15 to 2023-08-18 generates the two intermediate dates. -/
theorem generate_sorted_bounded_business_witness :
    List.Pairwise (· < ·) [fromYmd 2023 8 16, fromYmd 2023 8 17] ∧
    (∀ x ∈ [fromYmd 2023 8 16, fromYmd 2023 8 17], x < fromYmd 2023 8 18) ∧
    (∀ c r, (Schedule.mk .Daily none none).calendar = some c →
      (Schedule.mk .Daily none none).adjust_rule = some r → r ≠ .Unadjusted →
      ∀ x ∈ [fromYmd 2023 8 16, fromYmd 2023 8 17], is_business_day x c = true) :=
  generate_sorted_bounded_business (Schedule.mk .Daily none none)
    (fromYmd 2023 8 15) (fromYmd 2023 8 18) 10
    [fromYmd 2023 8 16, fromYmd 2023 8 17] (by decide)

/-- **C6, counterexample**: with frequency `Once` and a start strictly
before the end, `generate` never returns an `ok` result for any fuel —
the iterator is stationary at the start date, so the collection never
terminates (the claim asserts it returns `Ok` whenever `end > start`). -/
theorem generate_once_no_ok_cex :
    ¬ ∃ (fuel : Nat) (l : List Int),
        (Schedule.mk .Once none none).generate (fromYmd 2023 8 15) (fromYmd 2023 8 25) fuel
          = some (.ok l) := by
  rintro ⟨fuel, l, h⟩
  simp only [Schedule.generate] at h
  rw [if_neg (by decide)] at h
  rw [scheduleCollect_once_none (by decide) fuel] at h
  simp at h

/-- **C6, amended**: `generate` returns the typed `InvalidRange` failure
exactly when `end ≤ start`; whenever `end > start` it never returns that
failure — every returned value is `Ok` with the collected dates (for the
`Once` frequency the collection does not terminate, so nothing is
returned). -/
theorem generate_invalid_range_spec (s : Schedule) (start_date end_date : Int) (fuel : Nat) :
    (end_date ≤ start_date →
      s.generate start_date end_date fuel = some (.error .invalidRange)) ∧
    (start_date < end_date → ∀ r, s.generate start_date end_date fuel = some r →
      ∃ l, r = .ok l) := by
  constructor
  · intro hle
    simp [Schedule.generate, hle]
  · intro hlt r h
    simp only [Schedule.generate] at h
    rw [if_neg (not_le.mpr hlt)] at h
    obtain ⟨l, _, hok⟩ := Option.map_eq_some'.mp h
    exact ⟨l, hok.symm⟩

/-- Witness for the amended C6: a reversed range yields the typed
`InvalidRange` failure. -/
theorem generate_invalid_range_spec_witness :
    (Schedule.mk .Daily none none).generate (fromYmd 2023 8 25) (fromYmd 2023 8 15) 4
      = some (.error .invalidRange) :=
  (generate_invalid_range_spec (Schedule.mk .Daily none none)
    (fromYmd 2023 8 25) (fromYmd 2023 8 15) 4).1 (by decide)

/-- **C10**: when the adjusted start is at or past the adjusted end,
`bus_day_schedule` returns the one-element vector holding the adjusted
start, and `business_days_between` returns 0. -/
theorem bus_day_schedule_degenerate (start_date end_date : Int) (c : Calendar)
    (adjust_rule : Option AdjustRule) (fuel : Nat) (ns ne : Int)
    (hs : adjust start_date (some c) (some (adjust_rule.getD .Following)) fuel = some ns)
    (he : adjust end_date (some c) (some (adjust_rule.getD .Following)) fuel = some ne)
    (hge : ne ≤ ns) :
    bus_day_schedule start_date end_date c adjust_rule fuel = some [ns] ∧
    business_days_between start_date end_date c adjust_rule fuel = some 0 := by
  have hb : bus_day_schedule start_date end_date c adjust_rule fuel = some [ns] := by
    simp only [bus_day_schedule, hs, he, Option.some_bind]
    rw [bdsLoop_ge (not_lt.mpr hge) fuel]
    rfl
  exact ⟨hb, by simp [business_days_between, hb]⟩

/-- Witness for C10 with equal endpoints on a business day. -/
theorem bus_day_schedule_degenerate_witness :
    bus_day_schedule (fromYmd 2023 8 15) (fromYmd 2023 8 15) basic_calendar none 3
      = some [fromYmd 2023 8 15] ∧
    business_days_between (fromYmd 2023 8 15) (fromYmd 2023 8 15) basic_calendar none 3
      = some 0 :=
  bus_day_schedule_degenerate (fromYmd 2023 8 15) (fromYmd 2023 8 15) basic_calendar
    none 3 (fromYmd 2023 8 15) (fromYmd 2023 8 15) (by decide) (by decide) (by decide)

/-- **C4, counterexample**: with no calendar and end before start,
`day_count_fraction` under `D30360Euro` returns −1/2 while the swapped
interval returns +1/2 — the convention is order-dependent, contradicting
the claim that every convention except `ActActISDA` is
order-independent. -/
theorem dcf_swap_not_symmetric_cex :
    day_count_fraction 5 (fromYmd 2023 8 15) (fromYmd 2023 2 15) .D30360Euro none none
      = some (.value (-(1 / 2))) ∧
    day_count_fraction 5 (fromYmd 2023 2 15) (fromYmd 2023 8 15) .D30360Euro none none
      = some (.value (1 / 2)) ∧
    fromYmd 2023 2 15 < fromYmd 2023 8 15 := by
  have h1 : (((-180 : Int) : Rat) / 360) = -(1 / 2) := by norm_num
  have h2 : (((180 : Int) : Rat) / 360) = 1 / 2 := by norm_num
  refine ⟨?_, ?_, by decide⟩
  · rw [← h1]; rfl
  · rw [← h2]; rfl

/-- Swapping start and end does not change `dcfBody` under the `Act360`
and `Act365` conventions: both compute on the absolute day difference of
the (independently) adjusted endpoints. -/
theorem dcfBody_act_swap (recCall : Int → Int → DayCount → Option Calendar →
      Option AdjustRule → Option DCFOutcome)
    (fuel : Nat) (s e : Int) (cal : Option Calendar) (rule : Option AdjustRule)
    (dc : DayCount) (hdc : dc = .Act360 ∨ dc = .Act365) :
    dcfBody recCall fuel s e dc cal rule = dcfBody recCall fuel e s dc cal rule := by
  have habs : ∀ a b : Int, (a - b).natAbs = (b - a).natAbs := by
    intro a b
    rw [← neg_sub, Int.natAbs_neg]
  rcases hdc with rfl | rfl <;>
  · cases cal with
    | none =>
      simp only [dcfBody, Option.some_bind]
      rw [habs]
    | some c =>
      simp only [dcfBody]
      rcases hs : adjust s (some c) (some (rule.getD .Following)) fuel with _ | sa <;>
        rcases he : adjust e (some c) (some (rule.getD .Following)) fuel with _ | ea <;>
          simp only [hs, he, Option.none_bind, Option.some_bind, Option.map_none',
            Option.map_some']
      rw [habs]

/-- **C4, amended**: `day_count_fraction` under `Act360` and `Act365` is
order-independent — swapping start and end never changes the result; the
other non-`ActActISDA` conventions (`D30360Euro`, `D30365`, `Bd252`) are
order-dependent. -/
theorem dcf_act_swap_symmetric (s e : Int) (cal : Option Calendar)
    (rule : Option AdjustRule) (fuel : Nat) :
    day_count_fraction fuel s e .Act360 cal rule
      = day_count_fraction fuel e s .Act360 cal rule ∧
    day_count_fraction fuel s e .Act365 cal rule
      = day_count_fraction fuel e s .Act365 cal rule := by
  cases fuel with
  | zero =>
    exact ⟨dcfBody_act_swap _ 0 s e cal rule _ (Or.inl rfl),
      dcfBody_act_swap _ 0 s e cal rule _ (Or.inr rfl)⟩
  | succ f =>
    exact ⟨dcfBody_act_swap _ (f + 1) s e cal rule _ (Or.inl rfl),
      dcfBody_act_swap _ (f + 1) s e cal rule _ (Or.inr rfl)⟩

/-- **C5**: `day_count_fraction` with `Bd252` and no calendar takes the
process-aborting panic branch for every input — the source never surfaces
the typed, recoverable `MissingCalendar` failure the specification
requires. -/
theorem dcf_bd252_no_calendar_panics (fuel : Nat) (s e : Int) (rule : Option AdjustRule) :
    day_count_fraction fuel s e .Bd252 none rule = some .panicMissingCalendar := by
  cases fuel <;> rfl

/-- The dates generated by the Scenario D schedule: nineteen semiannual
dates strictly between 2023-08-15 and 2033-08-15 (the anchor itself is
not yielded). -/
def scenarioDDates : List Int :=
  [fromYmd 2024 2 15, fromYmd 2024 8 15, fromYmd 2025 2 15, fromYmd 2025 8 15,
   fromYmd 2026 2 15, fromYmd 2026 8 15, fromYmd 2027 2 15, fromYmd 2027 8 15,
   fromYmd 2028 2 15, fromYmd 2028 8 15, fromYmd 2029 2 15, fromYmd 2029 8 15,
   fromYmd 2030 2 15, fromYmd 2030 8 15, fromYmd 2031 2 15, fromYmd 2031 8 15,
   fromYmd 2032 2 15, fromYmd 2032 8 15, fromYmd 2033 2 15]

/-- **C1, counterexample**: the Scenario D schedule yields exactly 19
dates, not 20 — the iterator starts at the first step after the anchor
and stops before 2033-08-15. -/
theorem semiannual_generate_cex :
    (Schedule.mk .Semiannual none none).generate (fromYmd 2023 8 15) (fromYmd 2033 8 15) 25
      = some (.ok scenarioDDates) ∧
    scenarioDDates.length = 19 := by
  decide

/-- **C1, amended**: the Scenario D generation succeeds and yields exactly
19 dates, each six months after the previous (the first six months after
the start), and `day_count_fraction` under `D30360Euro` between every
consecutive pair of yielded dates equals exactly 1/2. -/
theorem semiannual_generate_spec :
    (Schedule.mk .Semiannual none none).generate (fromYmd 2023 8 15) (fromYmd 2033 8 15) 25
      = some (.ok scenarioDDates) ∧
    scenarioDDates.length = 19 ∧
    chainB (fun a b => b == addMonths a 6) (fromYmd 2023 8 15 :: scenarioDDates) = true ∧
    List.Chain' (fun a b =>
        day_count_fraction 5 a b .D30360Euro none none = some (.value (1 / 2)))
      scenarioDDates := by
  have hhalf : (((180 : Int) : Rat) / 360) = 1 / 2 := by norm_num
  refine ⟨by decide, by decide, by decide, ?_⟩
  simp only [scenarioDDates, List.chain'_cons, List.chain'_singleton, and_true]
  repeat' apply And.intro
  all_goals (rw [← hhalf]; rfl)

end Findates
